import Mathlib

/-!
Shallow embedding of the attendance-verification core of the repository
(React/TypeScript): the schedule-status engine, the attendee verification
pipeline (token freshness, distance gate, confidence-gated biometric
decision), the presenter geofence-drift loop, the timetable submission
checks, and the bulk attendance purge.

Conventions of the embedding:
* JS numbers that are used as integers (epoch milliseconds, minute
  offsets) are `Int`/`Nat`; fractional quantities (confidences,
  distances in meters) are `Rat`.
* JS strings that the code computes with character-wise (the `HH:MM`
  time field) are `List Char`; other strings are opaque `String`s.
* `NaN` produced by `Number(...)` on a non-numeric string is `none` of
  an `Option`; every comparison against `none` is `false`, matching
  `NaN` comparison semantics.
* The haversine helper `calculateDistance` lives in a source file that
  is not part of the excerpt; distances reach the embedded code as
  explicit arguments, which is all the gating logic observes.
-/

/-! ## JS string primitives used by the code -/

/-- A decimal digit character (code points 48–57), as tested by the
numeric strings the code parses. -/
def jsIsDigit (c : Char) : Bool := decide (48 ≤ c.toNat) && decide (c.toNat ≤ 57)

/-- Numeric value of a digit character. -/
def jsDigitVal (c : Char) : ℕ := c.toNat - '0'.toNat

/-- `String.prototype.split(sep)` for a one-character separator, on the
character-list view of the string. -/
def splitOnChar (sep : Char) : List Char → List (List Char)
  | [] => [[]]
  | c :: rest =>
    if c = sep then [] :: splitOnChar sep rest
    else
      match splitOnChar sep rest with
      | [] => [[c]]
      | h :: t => (c :: h) :: t

/-- `Number(s)` restricted to the strings this code feeds it: a string of
decimal digits evaluates to its decimal value, the empty string to `0`
(a JS quirk), anything else to `NaN` (modelled as `none`). -/
def jsNumber (s : List Char) : Option ℕ :=
  if s.all jsIsDigit then some (s.foldl (fun acc c => 10 * acc + jsDigitVal c) 0) else none

/-- Lexicographic string comparison by code point: `lexLe a b` holds iff
`a.localeCompare(b) <= 0` for the ASCII strings in scope. -/
def lexLe : List Char → List Char → Bool
  | [], _ => true
  | _ :: _, [] => false
  | a :: as, b :: bs =>
    if a.toNat < b.toNat then true
    else if b.toNat < a.toNat then false
    else lexLe as bs

/-- A well-formed `HH:MM` value as produced by `<input type="time">`:
five characters, zero-padded digits around a colon, hours below 24 and
minutes below 60. -/
def wellFormedHM : List Char → Bool
  | [a, b, c, d, e] =>
    jsIsDigit a && jsIsDigit b && (c = ':') && jsIsDigit d && jsIsDigit e &&
      decide (10 * jsDigitVal a + jsDigitVal b < 24) &&
      decide (10 * jsDigitVal d + jsDigitVal e < 60)
  | _ => false

/-- Minute-of-day value of a well-formed `HH:MM` string (0 for other
shapes; only used under a `wellFormedHM` hypothesis). -/
def hmVal : List Char → ℕ
  | [a, b, _, d, e] => (10 * jsDigitVal a + jsDigitVal b) * 60 + (10 * jsDigitVal d + jsDigitVal e)
  | _ => 0

/-! ## Data model -/

/-- Day-of-week labels; the TS code stores these as the strings of
`DAYS_OF_WEEK`. -/
inductive Day
  | sunday | monday | tuesday | wednesday | thursday | friday | saturday
deriving DecidableEq

/-- `DAYS_OF_WEEK`, indexed by `Date.prototype.getDay()` (Sunday = 0). -/
def DAYS_OF_WEEK : List Day :=
  [.sunday, .monday, .tuesday, .wednesday, .thursday, .friday, .saturday]

/-- `DAYS_OF_WEEK[i]` (total via a default; `getDay()` is always 0–6). -/
def dayAt (i : ℕ) : Day := DAYS_OF_WEEK.getD i .sunday

/-- `LocationCoordinate` from `types.ts`. -/
structure LocationCoordinate where
  latitude : ℚ
  longitude : ℚ
deriving DecidableEq

/-- `SessionData` from `types.ts`: the payload of the rotating QR token. -/
structure SessionData where
  location : LocationCoordinate
  timestamp : ℤ
deriving DecidableEq

/-- `TimetableEntry` from `types.ts`. `duration` is `Option` because the
code guards every read with `entry.duration || DEFAULT_CLASS_DURATION_MINS`
(legacy documents may lack the field; `0` is falsy too). -/
structure TimetableEntry where
  id : String
  day : Day
  time : List Char
  subject : String
  duration : Option ℕ
deriving DecidableEq

/-- `AttendanceRecord` from `types.ts` (without the store-assigned id,
as in `Omit<AttendanceRecord, 'id'>` at the write site). -/
structure AttendanceRecord where
  studentId : String
  studentName : String
  subject : String
  date : String
  status : String
deriving DecidableEq

/-- `Student` from `types.ts`, restricted to the fields the pipeline reads. -/
structure Student where
  uid : String
  name : String
deriving DecidableEq

/-! ## Constants (`constants.ts` and `StudentPortal.tsx`) -/

def MAX_DISTANCE_METERS : ℚ := 50
def QR_REFRESH_INTERVAL_MS : ℤ := 10000
def MAX_FACULTY_MOVEMENT_METERS : ℚ := 100
def RETRY_CONFIDENCE_THRESHOLD : ℚ := 75 / 100
def DEFAULT_CLASS_DURATION_MINS : ℕ := 45
/-- Declared inside `AttendanceDashboard` in `StudentPortal.tsx`. -/
def CONFIDENCE_THRESHOLD : ℚ := 90 / 100

/-! ## Shared time parsing -/

/-- `time.split(':').map(Number)` destructured as `[hours, minutes]`,
then `hours * 60 + minutes`; `none` is the `NaN` outcome. Used both by
`getScheduleStatus` and by `timeToMinutes` in `TimetableManager`. -/
def parseTimeValue (s : List Char) : Option ℕ :=
  let parts := (splitOnChar ':' s).map jsNumber
  match parts.getD 0 none, parts.getD 1 none with
  | some h, some m => some (h * 60 + m)
  | _, _ => none

/-- `new Date('1970-01-01T' + time + ':00')` as a minute offset: the ISO
parse succeeds exactly on well-formed `HH:MM`, otherwise the `Date` is
invalid and every comparison on it is false (`none`). -/
def dateParseHM (s : List Char) : Option ℕ :=
  if wellFormedHM s then some (hmVal s) else none

/-- `entry.duration || DEFAULT_CLASS_DURATION_MINS` (`0` and a missing
field are both falsy). -/
def effDuration (e : TimetableEntry) : ℕ :=
  match e.duration with
  | some d => if d = 0 then DEFAULT_CLASS_DURATION_MINS else d
  | none => DEFAULT_CLASS_DURATION_MINS

/-! ## Attendee pipeline (`StudentPortal.tsx`) -/

/-- Raw decoded QR payload before the guard
`if (!sessionData.location || !sessionData.timestamp)`: either field may
be absent, and `timestamp === 0` is falsy. -/
structure QrPayload where
  location : Option LocationCoordinate
  timestamp : Option ℤ
deriving DecidableEq

/-- Failure modes of `handleQrScan`. -/
inductive ScanError
  | invalidQr    -- "Invalid QR code data."
  | expired      -- "QR code has expired. Please scan a new one."
  | tooFar       -- "You are ...m away. You must be within ...m."
deriving DecidableEq

/-- `handleQrScan` from `StudentPortal.tsx`: parse guard, freshness
check against `QR_REFRESH_INTERVAL_MS + 5000`, then the distance gate.
`distance` is `calculateDistance(studentLocation, sessionData.location)`,
passed in because the haversine helper is external to the excerpt. On
success the scanned session is stored and face capture opens. -/
def handleQrScan (p : QrPayload) (now : ℤ) (distance : ℚ) :
    Except ScanError SessionData :=
  match p.location, p.timestamp with
  | some loc, some ts =>
    if ts = 0 then .error .invalidQr   -- `!sessionData.timestamp` on falsy 0
    else if QR_REFRESH_INTERVAL_MS + 5000 < now - ts then .error .expired
    else if MAX_DISTANCE_METERS < distance then .error .tooFar
    else .ok ⟨loc, ts⟩
  | _, _ => .error .invalidQr

/-- The predicate of the class-resolution inlined in the accept branch
of `handleVerification`: the day test, the `Date`-based time parse, and
the inclusive comparison `nowTime >= classTime && nowTime <= endTime`. -/
def inlineIsCurrent (currentDay : Day) (nowMinutes : ℕ)
    (e : TimetableEntry) : Bool :=
  e.day = currentDay &&
    match dateParseHM e.time with
    | some start => decide (start ≤ nowMinutes) && decide (nowMinutes ≤ start + effDuration e)
    | none => false

/-- The `timetable.find(...)` of the accept branch itself. -/
def inlineCurrentClass (timetable : List TimetableEntry) (currentDay : Day)
    (nowMinutes : ℕ) : Option TimetableEntry :=
  timetable.find? (inlineIsCurrent currentDay nowMinutes)

/-- `VerificationResult` as consumed from the external matcher; the TS
field `match` is a Lean keyword and is embedded as `isMatch`. -/
structure VerificationResult where
  isMatch : Bool
  confidence : ℚ
deriving DecidableEq

/-- Terminal states of one `handleVerification` run. -/
inductive VerifyOutcome
  | sessionMissing                       -- scannedSession was null
  | accepted (record : AttendanceRecord) -- attendance marked
  | noActiveClass                        -- "No class scheduled at this time."
  | retryOffered                         -- medium confidence, face capture reopened
  | rejectedNoMatch                      -- "Face not recognized..."
  | rejectedLowConfidence                -- "Face match confidence was too low..."
deriving DecidableEq

/-- The record built in the accept branch. -/
def mkRecord (user : Student) (c : TimetableEntry) (today : String) :
    AttendanceRecord :=
  { studentId := user.uid, studentName := user.name, subject := c.subject,
    date := today, status := "present" }

/-- `handleVerification` from `StudentPortal.tsx`, as a function of the
matcher result. Returns the outcome, the new `retryAttempted` flag, and
the list of `addAttendanceRecord` calls performed (each call appends one
document). The catch-all resets `retryAttempted` to `false` on every
thrown error. -/
def handleVerification (scannedSession : Option SessionData) (user : Student)
    (timetable : List TimetableEntry) (vr : VerificationResult)
    (retryAttempted : Bool) (nowDayIdx : ℕ) (nowMinutes : ℕ) (today : String) :
    VerifyOutcome × Bool × List AttendanceRecord :=
  match scannedSession with
  | none => (.sessionMissing, retryAttempted, [])
  | some _ =>
    if vr.isMatch && decide (CONFIDENCE_THRESHOLD ≤ vr.confidence) then
      match inlineCurrentClass timetable (dayAt nowDayIdx) nowMinutes with
      | none => (.noActiveClass, false, [])
      | some c => (.accepted (mkRecord user c today), false, [mkRecord user c today])
    else if vr.isMatch && decide (RETRY_CONFIDENCE_THRESHOLD ≤ vr.confidence)
        && !retryAttempted then
      (.retryOffered, true, [])
    else if !vr.isMatch then (.rejectedNoMatch, false, [])
    else (.rejectedLowConfidence, false, [])

/-- One full attendee run: the scan handler followed, on success, by the
verification handler (face capture and the matcher sit between them; the
matcher's verdict is the `vr` argument). -/
def pipelineRun (p : QrPayload) (now : ℤ) (distance : ℚ) (user : Student)
    (timetable : List TimetableEntry) (vr : VerificationResult)
    (retryAttempted : Bool) (nowDayIdx : ℕ) (nowMinutes : ℕ) (today : String) :
    Except ScanError VerifyOutcome × List AttendanceRecord :=
  match handleQrScan p now distance with
  | .error e => (.error e, [])
  | .ok s =>
    let r := handleVerification (some s) user timetable vr retryAttempted
      nowDayIdx nowMinutes today
    (.ok r.1, r.2.2)

/-! ## Presenter session and geofence drift (`FacultyPortal.tsx`) -/

/-- The slice of faculty-portal state the refresh effect touches. -/
structure FacultyState where
  activeSession : Option SessionData
  initialSessionLocation : Option LocationCoordinate
deriving DecidableEq

/-- `startSession` (success path): records the sampled location both as
the session location and as the immutable anchor for drift checks. -/
def startSession (location : LocationCoordinate) (now : ℤ) : FacultyState :=
  { activeSession := some ⟨location, now⟩, initialSessionLocation := some location }

/-- `stopSession`: clears the session and the anchor. -/
def stopSession (_st : FacultyState) : FacultyState :=
  { activeSession := none, initialSessionLocation := none }

/-- Observable outcome of one refresh tick. -/
inductive TickOutcome
  | drifted     -- session force-stopped, drift error shown
  | refreshed   -- session updated with new location and fresh timestamp
deriving DecidableEq

/-- The body of the location-refresh interval in `FacultyPortal.tsx`:
guard on an active session and anchor, compare the freshly sampled
location's distance **to the anchor** with `MAX_FACULTY_MOVEMENT_METERS`,
then either `stopSession()` with a drift error or
`setActiveSession({location: newLocation, timestamp: Date.now()})`.
`distanceFromStart` is `calculateDistance(newLocation, initialSessionLocation)`. -/
def refreshTick (st : FacultyState) (newLocation : LocationCoordinate)
    (distanceFromStart : ℚ) (now : ℤ) : FacultyState × Option TickOutcome :=
  match st.activeSession, st.initialSessionLocation with
  | some _, some _ =>
    if MAX_FACULTY_MOVEMENT_METERS < distanceFromStart then
      (stopSession st, some .drifted)
    else
      ({ activeSession := some ⟨newLocation, now⟩,
         initialSessionLocation := st.initialSessionLocation }, some .refreshed)
  | _, _ => (st, none)

/-! ## Timetable submission (`TimetableManager` in `FacultyPortal.tsx`) -/

/-- Outcomes of `handleSubmit`. `saved` carries the timetable after the
write that the success path performs (`addEntry` appends a document;
`updateEntry` overwrites the document with the edited id). -/
inductive SubmitResult
  | validationError                       -- "Time, Subject, and a valid Duration are required."
  | capError                              -- "Cannot add more than 7 classes for ..."
  | conflictError (withEntry : TimetableEntry)  -- "Conflict: This overlaps with ..."
  | saved (newTimetable : List TimetableEntry)
deriving DecidableEq

/-- Whether a result is the successful write. -/
def SubmitResult.isSaved : SubmitResult → Bool
  | .saved _ => true
  | _ => false

/-- The conflict test of `handleSubmit` against one existing entry:
same day, not the entry being edited, and
`newStart < existEnd && existStart < newEnd` on `timeToMinutes` values
(`NaN` comparisons are false). -/
def conflictsWith (editingEntry : Option TimetableEntry) (day : Day)
    (newStart newEnd : Option ℕ) (e : TimetableEntry) : Bool :=
  let isEdited : Bool :=
    match editingEntry with
    | some ed => e.id == ed.id
    | none => false
  if e.day ≠ day then false
  else if isEdited then false
  else
    match newStart, newEnd, parseTimeValue e.time with
    | some ns, some ne, some es => decide (ns < es + effDuration e) && decide (es < ne)
    | _, _, _ => false

/-- `handleSubmit` from `TimetableManager`: field validation, the
7-entries-per-day cap (creation only), the overlap scan, then the write.
`duration` is the raw form number, so it is an `Int` until validated
positive. `freshId` stands for the store-assigned id of a new document. -/
def handleSubmit (timetable : List TimetableEntry)
    (editingEntry : Option TimetableEntry) (day : Day) (time : List Char)
    (subject : String) (duration : ℤ) (freshId : String) : SubmitResult :=
  let capHit : Bool :=
    match editingEntry with
    | none => decide (7 ≤ (timetable.filter (fun e => e.day == day)).length)
    | some _ => false
  if time = [] || subject = "" || decide (duration ≤ 0) then .validationError
  else if capHit then .capError
  else
    let newStart := parseTimeValue time
    let newEnd := newStart.map (fun s => s + duration.toNat)
    match timetable.find? (conflictsWith editingEntry day newStart newEnd) with
    | some c => .conflictError c
    | none =>
      match editingEntry with
      | some ed =>
        .saved (timetable.map fun e =>
          if e.id = ed.id then
            { e with day := day, time := time, subject := subject,
                     duration := some duration.toNat }
          else e)
      | none =>
        .saved (timetable ++ [{ id := freshId, day := day, time := time,
                                subject := subject, duration := some duration.toNat }])

/-! ## Bulk purge (`deleteAllAttendanceRecords` in `AppContext.tsx`) -/

/-- A stored attendance document: a store id plus the record. -/
structure AttendanceDoc where
  id : String
  record : AttendanceRecord
deriving DecidableEq

/-- The body of the `for (let i = 0; i < length; i += BATCH_SIZE)`
slicing loop, driven by a step counter (the fuel) that is bounded below
by the list length at the top-level call and therefore never runs out
before the list does. -/
def chunksOfFuel (n : ℕ) : ℕ → List AttendanceDoc → List (List AttendanceDoc)
  | _, [] => []
  | 0, a :: rest => [a :: rest]
  | fuel + 1, a :: rest =>
    if n = 0 then [a :: rest]
    else ((a :: rest).take n) :: chunksOfFuel n fuel ((a :: rest).drop n)

/-- The `slice(i, i + BATCH_SIZE)` chunking loop of
`deleteAllAttendanceRecords`. -/
def chunksOf (n : ℕ) (l : List AttendanceDoc) : List (List AttendanceDoc) :=
  chunksOfFuel n l.length l

/-- The fuel is irrelevant as long as it covers the list. -/
theorem chunksOfFuel_congr (n : ℕ) :
    ∀ (fuel₁ fuel₂ : ℕ) (l : List AttendanceDoc),
      l.length ≤ fuel₁ → l.length ≤ fuel₂ →
      chunksOfFuel n fuel₁ l = chunksOfFuel n fuel₂ l := by
  intro fuel₁
  induction fuel₁ with
  | zero =>
    intro fuel₂ l h1 h2
    match l, h1 with
    | [], _ => cases fuel₂ <;> rfl
  | succ f ih =>
    intro fuel₂ l h1 h2
    match l with
    | [] => cases fuel₂ <;> rfl
    | a :: rest =>
      match fuel₂, h2 with
      | f2 + 1, h2 =>
        simp only [chunksOfFuel]
        by_cases hn : n = 0
        · simp [hn]
        · rw [if_neg hn, if_neg hn,
            ih f2 ((a :: rest).drop n) (by simp at h1 ⊢; omega)
              (by simp at h2 ⊢; omega)]

/-- `Promise.all` over the batch commits: resolves iff every commit
resolves, otherwise rejects carrying one failing batch index (the first,
standing for whichever rejection settles first). -/
def promiseAll (results : List Bool) : Except ℕ Unit :=
  match results.findIdx? (fun b => !b) with
  | some i => .error i
  | none => .ok ()

/-- What one run of the purge did. -/
structure PurgeRun where
  batches : List (List AttendanceDoc)
  result : Except ℕ Unit
  finalLedger : List AttendanceDoc

/-- `deleteAllAttendanceRecords` (guards on role and subjects already
passed): read the whole ledger, filter client-side by the faculty's
subjects, chunk into batches of 500, commit all batches concurrently and
`Promise.all` the outcomes. `commitOk i` is whether batch `i`'s
`batch.commit()` settles successfully; a successful batch's documents
are gone from the store whatever the other batches did (no cross-batch
transaction). -/
def deleteAllAttendanceRecords (ledger : List AttendanceDoc)
    (facultySubjects : List String) (commitOk : ℕ → Bool) : PurgeRun :=
  let recordsToDelete := ledger.filter (fun d => facultySubjects.contains d.record.subject)
  if recordsToDelete.length = 0 then
    { batches := [], result := .ok (), finalLedger := ledger }
  else
    let batches := chunksOf 500 recordsToDelete
    { batches := batches
      result := promiseAll ((List.range batches.length).map commitOk)
      finalLedger := ledger.filter fun d =>
        !(batches.enum.any fun bi => commitOk bi.1 && bi.2.contains d) }

/-! ## Schedule status engine (`scheduleService.ts`) -/

/-- The `startTimeValue` field added by the `.map` over today's entries
(`hours * 60 + minutes`, `none` when `NaN`). -/
def startTimeValue (e : TimetableEntry) : Option ℕ := parseTimeValue e.time

/-- Sort key for today's `(a, b) => a.startTimeValue - b.startTimeValue`
comparator; a `NaN` key (irrelevant under the well-formedness
hypotheses of the theorems) is modelled as `0`. -/
def sortKeyToday (e : TimetableEntry) : ℕ := (startTimeValue e).getD 0

/-- Order of today's numeric sort. -/
def byStartKey (a b : TimetableEntry) : Prop := sortKeyToday a ≤ sortKeyToday b

instance : DecidableRel byStartKey :=
  fun a b => inferInstanceAs (Decidable (sortKeyToday a ≤ sortKeyToday b))

instance : IsTotal TimetableEntry byStartKey :=
  ⟨fun a b => Nat.le_total (sortKeyToday a) (sortKeyToday b)⟩

instance : IsTrans TimetableEntry byStartKey :=
  ⟨fun _ _ _ => Nat.le_trans⟩

instance : IsRefl TimetableEntry byStartKey :=
  ⟨fun a => Nat.le_refl (sortKeyToday a)⟩

/-- Order of the next-day `(a, b) => a.time.localeCompare(b.time)` sort. -/
def byTimeLex (a b : TimetableEntry) : Prop := lexLe a.time b.time = true

instance : DecidableRel byTimeLex :=
  fun a b => inferInstanceAs (Decidable (lexLe a.time b.time = true))

theorem lexLe_refl : ∀ s : List Char, lexLe s s = true := by
  intro s
  induction s with
  | nil => rfl
  | cons a as ih => simp [lexLe, ih]

theorem lexLe_total : ∀ a b : List Char, lexLe a b = true ∨ lexLe b a = true := by
  intro a
  induction a with
  | nil => intro b; left; rfl
  | cons x xs ih =>
    intro b
    cases b with
    | nil => right; rfl
    | cons y ys =>
      by_cases h1 : x.toNat < y.toNat
      · left; simp [lexLe, h1]
      · by_cases h2 : y.toNat < x.toNat
        · right; simp [lexLe, h2]
        · rcases ih ys with h | h
          · left; simp [lexLe, h1, h2, h]
          · right; simp [lexLe, h1, h2, h]

theorem lexLe_trans : ∀ a b c : List Char,
    lexLe a b = true → lexLe b c = true → lexLe a c = true := by
  intro a
  induction a with
  | nil => intro b c _ _; rfl
  | cons x xs ih =>
    intro b c hab hbc
    cases b with
    | nil => simp [lexLe] at hab
    | cons y ys =>
      cases c with
      | nil => simp [lexLe] at hbc
      | cons z zs =>
        simp only [lexLe] at hab hbc ⊢
        by_cases hxy : x.toNat < y.toNat
        · by_cases hyz : y.toNat < z.toNat
          · simp [Nat.lt_trans hxy hyz]
          · by_cases hzy : z.toNat < y.toNat
            · simp [hyz, hzy] at hbc
            · have : y.toNat = z.toNat := Nat.le_antisymm (Nat.le_of_not_lt hzy) (Nat.le_of_not_lt hyz)
              simp [this ▸ hxy]
        · by_cases hyx : y.toNat < x.toNat
          · simp [hxy, hyx] at hab
          · have hxyeq : x.toNat = y.toNat := Nat.le_antisymm (Nat.le_of_not_lt hyx) (Nat.le_of_not_lt hxy)
            simp only [hxy, hyx, if_false, if_true] at hab
            by_cases hyz : y.toNat < z.toNat
            · simp [hxyeq ▸ hyz]
            · by_cases hzy : z.toNat < y.toNat
              · simp [hyz, hzy] at hbc
              · simp only [hyz, hzy, if_false, if_true] at hbc
                have h1 : ¬ x.toNat < z.toNat := by omega
                have h2 : ¬ z.toNat < x.toNat := by omega
                simp only [if_neg hxy] at *
                simp [h1, h2, ih ys zs hab hbc]

instance : IsTotal TimetableEntry byTimeLex :=
  ⟨fun a b => lexLe_total a.time b.time⟩

instance : IsTrans TimetableEntry byTimeLex :=
  ⟨fun _ _ _ hab hbc => lexLe_trans _ _ _ hab hbc⟩

instance : IsRefl TimetableEntry byTimeLex :=
  ⟨fun a => lexLe_refl a.time⟩

/-- The loop's currently-running test
`nowTimeValue >= startTime && nowTimeValue < endTime` (false on `NaN`). -/
def isCurrent (nowTimeValue : ℕ) (e : TimetableEntry) : Bool :=
  match startTimeValue e with
  | some s => decide (s ≤ nowTimeValue ∧ nowTimeValue < s + effDuration e)
  | none => false

/-- The loop's upcoming test `startTime > nowTimeValue` (false on `NaN`). -/
def isUpcoming (nowTimeValue : ℕ) (e : TimetableEntry) : Bool :=
  match startTimeValue e with
  | some s => decide (nowTimeValue < s)
  | none => false

/-- The body of the `for (const entry of todayEntries)` loop: the last
entry with `startTime <= now < endTime` becomes `currentClassId`, and
entries with `startTime > now` are pushed onto `upcomingToday` in order. -/
def todayScan (nowTimeValue : ℕ) (entries : List TimetableEntry) :
    Option String × List TimetableEntry :=
  entries.foldl
    (fun acc e =>
      ((if isCurrent nowTimeValue e then some e.id else acc.1),
       (if isUpcoming nowTimeValue e then acc.2 ++ [e] else acc.2)))
    (none, [])

/-- Today's entries filtered and sorted by `startTimeValue` (JS
`Array.prototype.sort` is a stable comparator sort; any sort agrees with
it up to the order of equal keys, which no theorem below depends on). -/
def todaySorted (timetable : List TimetableEntry) (currentDay : Day) :
    List TimetableEntry :=
  List.insertionSort byStartKey (timetable.filter (fun e => e.day == currentDay))

/-- One next-day candidate list of the fallback loop: filter to the day,
sort by `localeCompare` on the raw time strings. -/
def nextDaySorted (timetable : List TimetableEntry) (d : Day) :
    List TimetableEntry :=
  List.insertionSort byTimeLex (timetable.filter (fun e => e.day == d))

/-- The `for (let i = 1; i <= 7; i++)` fallback: first non-empty day
scanning forward from tomorrow, wrapping around the week (day 7 is today
again); returns the first entry of that day's lexicographic sort. -/
def scanDaysFrom (timetable : List TimetableEntry) (nowDayIdx : ℕ) :
    ℕ → ℕ → Option String
  | 0, _ => none
  | fuel + 1, i =>
    match nextDaySorted timetable (dayAt ((nowDayIdx + i) % 7)) with
    | [] => scanDaysFrom timetable nowDayIdx fuel (i + 1)
    | h :: _ => some h.id

/-- Result of `getScheduleStatus`. -/
structure ScheduleStatus where
  currentClassId : Option String
  nextClassId : Option String
deriving DecidableEq

/-- `getScheduleStatus` from `scheduleService.ts`, with `new Date()`
split into its two observations: `nowDayIdx = now.getDay()` and
`nowTimeValue = now.getHours() * 60 + now.getMinutes()`. -/
def getScheduleStatus (timetable : List TimetableEntry)
    (nowDayIdx nowTimeValue : ℕ) : ScheduleStatus :=
  let currentDay := dayAt nowDayIdx
  let res := todayScan nowTimeValue (todaySorted timetable currentDay)
  let nextToday : Option String := res.2.head?.map (fun e => e.id)
  let next :=
    match nextToday with
    | some nid => some nid
    | none => scanDaysFrom timetable nowDayIdx 7 1
  ⟨res.1, next⟩

/-! ## Claim theorems -/

/-- C1: confidence-gated decision policy. For every biometric attempt
with result `(match, confidence)` and retry flag `retryUsed`: the
attempt is accepted when `match` holds and `confidence >= 0.9`
(acceptance then proceeds to class resolution); otherwise, when `match`
holds, `confidence >= 0.75` and no retry was used, exactly one retry is
offered and the flag becomes `true`; otherwise the attempt is rejected,
with the no-match rejection distinguished from the
match-but-low-confidence rejection. -/
theorem confidence_gate_policy (s : SessionData) (user : Student)
    (timetable : List TimetableEntry) (vr : VerificationResult)
    (retryUsed : Bool) (d m : ℕ) (today : String) :
    (vr.isMatch = true → CONFIDENCE_THRESHOLD ≤ vr.confidence →
      (∃ rec, (handleVerification (some s) user timetable vr retryUsed d m today).1 =
          .accepted rec) ∨
        (handleVerification (some s) user timetable vr retryUsed d m today).1 =
          .noActiveClass) ∧
    (vr.isMatch = true → ¬ CONFIDENCE_THRESHOLD ≤ vr.confidence →
      RETRY_CONFIDENCE_THRESHOLD ≤ vr.confidence → retryUsed = false →
      (handleVerification (some s) user timetable vr retryUsed d m today).1 =
          .retryOffered ∧
        (handleVerification (some s) user timetable vr retryUsed d m today).2.1 = true) ∧
    (vr.isMatch = false →
      (handleVerification (some s) user timetable vr retryUsed d m today).1 =
        .rejectedNoMatch) ∧
    (vr.isMatch = true → ¬ CONFIDENCE_THRESHOLD ≤ vr.confidence →
      ¬ (RETRY_CONFIDENCE_THRESHOLD ≤ vr.confidence ∧ retryUsed = false) →
      (handleVerification (some s) user timetable vr retryUsed d m today).1 =
        .rejectedLowConfidence) := by
  refine ⟨?_, ?_, ?_, ?_⟩
  · intro hm hc
    simp only [handleVerification, hm, hc, decide_eq_true_eq, decide_True, Bool.true_and, if_true]
    cases inlineCurrentClass timetable (dayAt d) m with
    | none => right; rfl
    | some c => left; exact ⟨_, rfl⟩
  · intro hm hc hr hu
    simp [handleVerification, hm, hc, hr, hu]
  · intro hm
    simp only [handleVerification, hm, Bool.false_and, if_false, Bool.not_false,
      if_true]
    by_cases hr : RETRY_CONFIDENCE_THRESHOLD ≤ vr.confidence <;>
      simp [hr]
  · intro hm hc hfail
    by_cases hr : RETRY_CONFIDENCE_THRESHOLD ≤ vr.confidence
    · have hu : retryUsed = true := by
        cases retryUsed with
        | true => rfl
        | false => exact absurd ⟨hr, rfl⟩ hfail
      simp [handleVerification, hm, hc, hr, hu]
    · simp [handleVerification, hm, hc, hr]

/-- Closed instance of `confidence_gate_policy` exercising each branch
at the decision table of the spec. -/
theorem confidence_gate_policy_witness :
    ((handleVerification (some ⟨⟨0, 0⟩, 1⟩) ⟨"u", "n"⟩ [] ⟨true, 80 / 100⟩ false
        1 600 "2026-01-05").1 = .retryOffered ∧
      (handleVerification (some ⟨⟨0, 0⟩, 1⟩) ⟨"u", "n"⟩ [] ⟨true, 80 / 100⟩ false
        1 600 "2026-01-05").2.1 = true) ∧
    (handleVerification (some ⟨⟨0, 0⟩, 1⟩) ⟨"u", "n"⟩ [] ⟨false, 99 / 100⟩ false
        1 600 "2026-01-05").1 = .rejectedNoMatch ∧
    (handleVerification (some ⟨⟨0, 0⟩, 1⟩) ⟨"u", "n"⟩ [] ⟨true, 80 / 100⟩ true
        1 600 "2026-01-05").1 = .rejectedLowConfidence := by
  refine ⟨?_, ?_, ?_⟩
  · exact (confidence_gate_policy ⟨⟨0, 0⟩, 1⟩ ⟨"u", "n"⟩ [] ⟨true, 80 / 100⟩ false
      1 600 "2026-01-05").2.1 rfl (by norm_num [CONFIDENCE_THRESHOLD])
      (by norm_num [RETRY_CONFIDENCE_THRESHOLD]) rfl
  · exact (confidence_gate_policy ⟨⟨0, 0⟩, 1⟩ ⟨"u", "n"⟩ [] ⟨false, 99 / 100⟩ false
      1 600 "2026-01-05").2.2.1 rfl
  · exact (confidence_gate_policy ⟨⟨0, 0⟩, 1⟩ ⟨"u", "n"⟩ [] ⟨true, 80 / 100⟩ true
      1 600 "2026-01-05").2.2.2 rfl (by norm_num [CONFIDENCE_THRESHOLD])
      (by simp)

/-- C3: token freshness. For a well-formed scanned token (location
present, non-zero `issuedAt`), the scan fails with the expiry error iff
`now - issuedAt` strictly exceeds `QR_REFRESH_INTERVAL_MS + 5000`; in
particular `now - issuedAt = interval + grace` passes the freshness
check and `interval + grace + 1` fails it. -/
theorem token_freshness (loc : LocationCoordinate) (issuedAt now : ℤ)
    (distance : ℚ) (h0 : issuedAt ≠ 0) :
    (handleQrScan ⟨some loc, some issuedAt⟩ now distance = .error .expired ↔
      QR_REFRESH_INTERVAL_MS + 5000 < now - issuedAt) ∧
    (now - issuedAt = QR_REFRESH_INTERVAL_MS + 5000 →
      handleQrScan ⟨some loc, some issuedAt⟩ now distance ≠ .error .expired) ∧
    (now - issuedAt = QR_REFRESH_INTERVAL_MS + 5000 + 1 →
      handleQrScan ⟨some loc, some issuedAt⟩ now distance = .error .expired) := by
  refine ⟨?_, ?_, ?_⟩
  · constructor
    · intro h
      by_contra hlt
      simp only [handleQrScan, if_neg h0, if_neg hlt] at h
      by_cases hd : MAX_DISTANCE_METERS < distance <;> simp [hd] at h
    · intro h
      simp [handleQrScan, h0, h]
  · intro h hc
    rw [(by omega : now - issuedAt = QR_REFRESH_INTERVAL_MS + 5000 ↔
        ¬ QR_REFRESH_INTERVAL_MS + 5000 < now - issuedAt ∧
          QR_REFRESH_INTERVAL_MS + 5000 ≤ now - issuedAt)] at h
    simp only [handleQrScan, if_neg h0, if_neg h.1] at hc
    by_cases hd : MAX_DISTANCE_METERS < distance <;> simp [hd] at hc
  · intro h
    simp [handleQrScan, h0, (by omega :
      QR_REFRESH_INTERVAL_MS + 5000 < now - issuedAt)]

/-- Closed instance of `token_freshness`: a token issued at `t = 1`,
checked at the boundary `now - issuedAt = 15000` (passes) and at
`15001` (expires). -/
theorem token_freshness_witness :
    ((1 : ℤ) ≠ 0) ∧
    (handleQrScan ⟨some ⟨0, 0⟩, some 1⟩ 15001 0 ≠ .error .expired) ∧
    (handleQrScan ⟨some ⟨0, 0⟩, some 1⟩ 15002 0 = .error .expired) := by
  refine ⟨by decide, ?_, ?_⟩
  · exact (token_freshness ⟨0, 0⟩ 1 15001 0 (by decide)).2.1 (by decide)
  · exact (token_freshness ⟨0, 0⟩ 1 15002 0 (by decide)).2.2 (by decide)

/-- C4: attendee distance boundary. For a location sample taken after a
fresh, well-formed token, the scan fails with the too-far error iff the
computed distance strictly exceeds `MAX_DISTANCE_METERS = 50`; a
distance of exactly 50 meters is accepted and the scan succeeds (the
pipeline proceeds to biometric capture). -/
theorem distance_boundary (loc : LocationCoordinate) (issuedAt now : ℤ)
    (distance : ℚ) (h0 : issuedAt ≠ 0)
    (hfresh : now - issuedAt ≤ QR_REFRESH_INTERVAL_MS + 5000) :
    (handleQrScan ⟨some loc, some issuedAt⟩ now distance = .error .tooFar ↔
      MAX_DISTANCE_METERS < distance) ∧
    (distance ≤ MAX_DISTANCE_METERS →
      handleQrScan ⟨some loc, some issuedAt⟩ now distance = .ok ⟨loc, issuedAt⟩) := by
  have hnl : ¬ QR_REFRESH_INTERVAL_MS + 5000 < now - issuedAt := by omega
  refine ⟨⟨?_, ?_⟩, ?_⟩
  · intro h
    by_contra hd
    simp [handleQrScan, h0, hnl, hd] at h
  · intro hd
    simp [handleQrScan, h0, hnl, hd]
  · intro hd
    simp [handleQrScan, h0, hnl, not_lt.mpr hd]

/-- Closed instance of `distance_boundary`: exactly 50 meters passes,
51 meters is rejected. -/
theorem distance_boundary_witness :
    (handleQrScan ⟨some ⟨0, 0⟩, some 1⟩ 100 50 = .ok ⟨⟨0, 0⟩, 1⟩) ∧
    (handleQrScan ⟨some ⟨0, 0⟩, some 1⟩ 100 51 = .error .tooFar) := by
  constructor
  · exact (distance_boundary ⟨0, 0⟩ 1 100 50 (by decide) (by decide)).2
      (by norm_num [MAX_DISTANCE_METERS])
  · exact (distance_boundary ⟨0, 0⟩ 1 100 51 (by decide) (by decide)).1.mpr
      (by norm_num [MAX_DISTANCE_METERS])

/-- C5: presenter geofence drift. While a session is active, a refresh
tick compares the freshly sampled location's distance to the anchor
recorded at session start; strictly above `MAX_FACULTY_MOVEMENT_METERS
= 100` the session is force-stopped with a drift report, otherwise
(including exactly 100) the session is refreshed with the new location
and a fresh timestamp while the anchor is left unchanged — and
`startSession` is what records the anchor. -/
theorem presenter_drift (st : FacultyState) (sess : SessionData)
    (anchor newLoc : LocationCoordinate) (dist : ℚ) (now : ℤ)
    (hact : st.activeSession = some sess)
    (hanch : st.initialSessionLocation = some anchor) :
    (MAX_FACULTY_MOVEMENT_METERS < dist →
      (refreshTick st newLoc dist now).1.activeSession = none ∧
      (refreshTick st newLoc dist now).2 = some .drifted) ∧
    (dist ≤ MAX_FACULTY_MOVEMENT_METERS →
      (refreshTick st newLoc dist now).1.activeSession = some ⟨newLoc, now⟩ ∧
      (refreshTick st newLoc dist now).1.initialSessionLocation = some anchor ∧
      (refreshTick st newLoc dist now).2 = some .refreshed) ∧
    (∀ loc t0, (startSession loc t0).initialSessionLocation = some loc ∧
      (startSession loc t0).activeSession = some ⟨loc, t0⟩) := by
  refine ⟨?_, ?_, fun loc t0 => ⟨rfl, rfl⟩⟩
  · intro hd
    simp [refreshTick, hact, hanch, hd, stopSession]
  · intro hd
    simp [refreshTick, hact, hanch, not_lt.mpr hd, hanch]

/-- Closed instance of `presenter_drift`: at exactly 100 meters the
session refreshes and keeps its anchor; at 101 meters it stops. -/
theorem presenter_drift_witness :
    (refreshTick (startSession ⟨10, 20⟩ 0) ⟨11, 21⟩ 100 10000).1.activeSession =
        some ⟨⟨11, 21⟩, 10000⟩ ∧
    (refreshTick (startSession ⟨10, 20⟩ 0) ⟨11, 21⟩ 100 10000).1.initialSessionLocation =
        some ⟨10, 20⟩ ∧
    (refreshTick (startSession ⟨10, 20⟩ 0) ⟨11, 21⟩ 100 10000).2 = some .refreshed ∧
    (refreshTick (startSession ⟨10, 20⟩ 0) ⟨11, 21⟩ 101 10000).1.activeSession = none := by
  have h1 := (presenter_drift (startSession ⟨10, 20⟩ 0) ⟨⟨10, 20⟩, 0⟩ ⟨10, 20⟩
    ⟨11, 21⟩ 100 10000 rfl rfl).2.1 (by norm_num [MAX_FACULTY_MOVEMENT_METERS])
  have h2 := (presenter_drift (startSession ⟨10, 20⟩ 0) ⟨⟨10, 20⟩, 0⟩ ⟨10, 20⟩
    ⟨11, 21⟩ 101 10000 rfl rfl).1 (by norm_num [MAX_FACULTY_MOVEMENT_METERS])
  exact ⟨h1.1, h1.2.1, h1.2.2, h2.1⟩

/-- C6: side effects of the attendee pipeline. The list of
`addAttendanceRecord` calls of one full run is `[record]` exactly when
the run ends in `accepted record` (successful class resolution), and is
empty on every other path — malformed token, expired token, too far,
no-match rejection, low-confidence rejection, the retry-consuming
attempt, and the no-active-class failure. -/
theorem pipeline_single_write (p : QrPayload) (now : ℤ) (distance : ℚ)
    (user : Student) (timetable : List TimetableEntry)
    (vr : VerificationResult) (retryAttempted : Bool) (d m : ℕ)
    (today : String) :
    (pipelineRun p now distance user timetable vr retryAttempted d m today).2 =
      (match (pipelineRun p now distance user timetable vr retryAttempted d m today).1 with
       | .ok (.accepted rec) => [rec]
       | _ => []) := by
  unfold pipelineRun
  cases h : handleQrScan p now distance with
  | error e => rfl
  | ok s =>
    dsimp only
    unfold handleVerification
    dsimp only
    split
    · split
      · rfl
      · rfl
    · split
      · rfl
      · split
        · rfl
        · rfl

/-- C10: implicit per-day cap. With 7 or more entries already on the
chosen day, creating a new entry is rejected (with the cap error when
the field validation passes) and nothing is written; the cap is not
checked when saving an edit, whose result is never the cap error. -/
theorem per_day_cap (timetable : List TimetableEntry) (day : Day)
    (time : List Char) (subject : String) (duration : ℤ) (freshId : String) :
    (7 ≤ (timetable.filter (fun e => e.day == day)).length →
      (handleSubmit timetable none day time subject duration freshId).isSaved = false) ∧
    (7 ≤ (timetable.filter (fun e => e.day == day)).length →
      ¬ (time = [] ∨ subject = "" ∨ duration ≤ 0) →
      handleSubmit timetable none day time subject duration freshId = .capError) ∧
    (∀ ed : TimetableEntry,
      handleSubmit timetable (some ed) day time subject duration freshId ≠ .capError) := by
  refine ⟨?_, ?_, ?_⟩
  · intro hcount
    unfold handleSubmit
    dsimp only
    split
    · rfl
    · rw [if_pos (by simpa using hcount)]
      rfl
  · intro hcount hvalid
    unfold handleSubmit
    dsimp only
    rw [if_neg (by push_neg at hvalid; simp [hvalid.1, hvalid.2.1]; omega),
      if_pos (by simpa using hcount)]
  · intro ed
    unfold handleSubmit
    dsimp only
    split
    · exact fun h => by cases h
    · rw [if_neg (by simp)]
      split
      · exact fun h => by cases h
      · exact fun h => by cases h

/-- Closed instance of `per_day_cap`: a day with 7 entries rejects an
eighth with the cap error, while an edit on the same full day is not
cap-rejected. -/
theorem per_day_cap_witness :
    (handleSubmit
        ((List.range 7).map fun i =>
          ⟨toString i, .monday, ['0', '9', ':', '0', '0'], "S", some 45⟩)
        none .monday ['1', '0', ':', '0', '0'] "S" 45 "f" = .capError) ∧
    (handleSubmit
        ((List.range 7).map fun i =>
          ⟨toString i, .monday, ['0', '9', ':', '0', '0'], "S", some 45⟩)
        (some ⟨"0", .monday, ['0', '9', ':', '0', '0'], "S", some 45⟩)
        .monday ['1', '0', ':', '0', '0'] "S" 45 "f" ≠ .capError) := by
  constructor
  · exact (per_day_cap _ .monday _ "S" 45 "f").2.1 (by decide) (by decide)
  · exact (per_day_cap _ .monday _ "S" 45 "f").2.2
      ⟨"0", .monday, ['0', '9', ':', '0', '0'], "S", some 45⟩

/-- Interval overlap between two timetable entries, in the sense of the
spec invariant: same day and intersecting half-open
`[start, start + duration)` intervals (an entry whose time fails to
parse carries no interval). -/
def overlaps (a b : TimetableEntry) : Prop :=
  a.day = b.day ∧
    ∃ s t, parseTimeValue a.time = some s ∧ parseTimeValue b.time = some t ∧
      s < t + effDuration b ∧ t < s + effDuration a

/-- The invariant of the claim: no two entries of the timetable overlap. -/
def NoOverlaps (tt : List TimetableEntry) : Prop :=
  tt.Pairwise fun a b => ¬ overlaps a b

/-- Ids of stored documents are pairwise distinct. -/
def IdsDistinct (tt : List TimetableEntry) : Prop :=
  tt.Pairwise fun a b => a.id ≠ b.id

/-- A passed conflict check really excludes interval overlap with the
submitted slot, in both directions. -/
theorem no_conflict_no_overlap (editing : Option TimetableEntry) (day : Day)
    (time : List Char) (duration : ℤ) (hd : 0 < duration)
    (e : TimetableEntry)
    (hok : conflictsWith editing day (parseTimeValue time)
        ((parseTimeValue time).map (fun s => s + duration.toNat)) e = false)
    (hid : ∀ ed, editing = some ed → e.id ≠ ed.id)
    (A : TimetableEntry) (hAd : A.day = day) (hAt : A.time = time)
    (hAdur : A.duration = some duration.toNat) :
    ¬ overlaps A e ∧ ¬ overlaps e A := by
  have htn : duration.toNat ≠ 0 := by omega
  have heffA : effDuration A = duration.toNat := by
    simp [effDuration, hAdur, htn]
  by_cases hday : e.day = day
  · have hok2 :
        (match parseTimeValue time,
            (parseTimeValue time).map (fun s => s + duration.toNat),
            parseTimeValue e.time with
          | some ns, some ne, some es =>
            decide (ns < es + effDuration e) && decide (es < ne)
          | _, _, _ => false) = false := by
      unfold conflictsWith at hok
      cases editing with
      | none => simpa [hday] using hok
      | some ed =>
        have hne : (e.id == ed.id) = false := by simpa using hid ed rfl
        simpa [hday, hne] using hok
    cases hpt : parseTimeValue time with
    | none =>
      constructor
      · rintro ⟨-, s, t, hs, -, -⟩
        rw [hAt, hpt] at hs; cases hs
      · rintro ⟨-, s, t, -, ht, -⟩
        rw [hAt, hpt] at ht; cases ht
    | some n =>
      cases hpe : parseTimeValue e.time with
      | none =>
        constructor
        · rintro ⟨-, s, t, -, ht, -⟩
          rw [hpe] at ht; cases ht
        · rintro ⟨-, s, t, hs, -, -⟩
          rw [hpe] at hs; cases hs
      | some u =>
        rw [hpt, hpe] at hok2
        simp only [Option.map_some, Option.map_some', Bool.and_eq_false_iff,
          decide_eq_false_iff_not, not_lt] at hok2
        constructor
        · rintro ⟨-, s, t, hs, ht, h1, h2⟩
          rw [hAt, hpt] at hs
          rw [hpe] at ht
          cases hs; cases ht
          rw [heffA] at h2
          rcases hok2 with h | h <;> omega
        · rintro ⟨-, s, t, hs, ht, h1, h2⟩
          rw [hpe] at hs
          rw [hAt, hpt] at ht
          cases hs; cases ht
          rw [heffA] at h1
          rcases hok2 with h | h <;> omega
  · constructor
    · rintro ⟨hAe, -⟩
      exact hday (by rw [← hAe, hAd])
    · rintro ⟨hAe, -⟩
      exact hday (by rw [hAe, hAd])

/-- An overlap among the existing entries (other than the edited one) is
found by the conflict scan. -/
theorem conflict_found (tt : List TimetableEntry)
    (editing : Option TimetableEntry) (day : Day) (time : List Char)
    (duration : ℤ)
    (hex : ∃ e ∈ tt, e.day = day ∧ (∀ ed, editing = some ed → e.id ≠ ed.id) ∧
        ∃ s n, parseTimeValue e.time = some s ∧ parseTimeValue time = some n ∧
          n < s + effDuration e ∧ s < n + duration.toNat) :
    ∃ c, tt.find? (conflictsWith editing day (parseTimeValue time)
        ((parseTimeValue time).map (fun s => s + duration.toNat))) = some c := by
  obtain ⟨e, he, hd, hid, s, n, hpe, hpt, h1, h2⟩ := hex
  have hp : conflictsWith editing day (parseTimeValue time)
      ((parseTimeValue time).map (fun s => s + duration.toNat)) e = true := by
    unfold conflictsWith
    cases editing with
    | none => simp [hd, hpe, hpt, h1, h2]
    | some ed =>
      have hne : (e.id == ed.id) = false := by simpa using hid ed rfl
      simp [hd, hne, hpe, hpt, h1, h2]
  cases hf : tt.find? (conflictsWith editing day (parseTimeValue time)
      ((parseTimeValue time).map (fun s => s + duration.toNat))) with
  | some c => exact ⟨c, rfl⟩
  | none => exact absurd hp (by simpa using List.find?_eq_none.mp hf e he)

/-- C9: timetable overlap invariant. Submitting an add or an edit whose
half-open `[startTime, startTime + duration)` interval overlaps another
existing entry of the same day (the edited entry itself excluded) is
never written; when the field validation and the per-day cap pass it is
rejected with the conflict error; and a successful save preserves the
invariant that no two same-day entries of the timetable overlap. -/
theorem timetable_overlap_invariant (tt : List TimetableEntry)
    (editing : Option TimetableEntry) (day : Day) (time : List Char)
    (subject : String) (duration : ℤ) (freshId : String) :
    ((∃ e ∈ tt, e.day = day ∧ (∀ ed, editing = some ed → e.id ≠ ed.id) ∧
        ∃ s n, parseTimeValue e.time = some s ∧ parseTimeValue time = some n ∧
          n < s + effDuration e ∧ s < n + duration.toNat) →
      (handleSubmit tt editing day time subject duration freshId).isSaved = false) ∧
    ((∃ e ∈ tt, e.day = day ∧ (∀ ed, editing = some ed → e.id ≠ ed.id) ∧
        ∃ s n, parseTimeValue e.time = some s ∧ parseTimeValue time = some n ∧
          n < s + effDuration e ∧ s < n + duration.toNat) →
      ¬ (time = [] ∨ subject = "" ∨ duration ≤ 0) →
      (∀ _h7 : editing = none, (tt.filter (fun e => e.day == day)).length < 7) →
      ∃ c, handleSubmit tt editing day time subject duration freshId =
        .conflictError c) ∧
    (IdsDistinct tt → NoOverlaps tt →
      ∀ tt2, handleSubmit tt editing day time subject duration freshId = .saved tt2 →
        NoOverlaps tt2) := by
  refine ⟨?_, ?_, ?_⟩
  · intro hex
    obtain ⟨c, hc⟩ := conflict_found tt editing day time duration hex
    unfold handleSubmit
    dsimp only
    split
    · rfl
    · split
      · rfl
      · rw [hc]
        rfl
  · intro hex hval hcap
    obtain ⟨c, hc⟩ := conflict_found tt editing day time duration hex
    push_neg at hval
    unfold handleSubmit
    dsimp only
    rw [if_neg (by simp [hval.1, hval.2.1]; omega)]
    rw [if_neg (by
      cases editing with
      | none => simpa using Nat.not_le.mpr (hcap rfl)
      | some ed => simp)]
    rw [hc]
    exact ⟨c, rfl⟩
  · intro hid hno tt2 hsv
    unfold handleSubmit at hsv
    dsimp only at hsv
    split at hsv
    · cases hsv
    · split at hsv
      · cases hsv
      · next hvalcond _ =>
        have hdpos : 0 < duration := by
          simp at hvalcond
          omega
        split at hsv
        · cases hsv
        · next hfind =>
          have hnc : ∀ e ∈ tt, conflictsWith editing day (parseTimeValue time)
              ((parseTimeValue time).map (fun s => s + duration.toNat)) e = false :=
            fun e he => by simpa using List.find?_eq_none.mp hfind e he
          cases editing with
          | some ed =>
            cases hsv
            rw [NoOverlaps, List.pairwise_map]
            refine (hno.and hid).imp_of_mem ?_
            intro a b ha hb hab
            obtain ⟨hnov, hne⟩ := hab
            by_cases haid : a.id = ed.id
            · have hbid : b.id ≠ ed.id := fun h => hne (haid.trans h.symm)
              rw [if_pos haid, if_neg hbid]
              exact (no_conflict_no_overlap (some ed) day time duration hdpos b
                (hnc b hb) (fun ed2 h2 => by cases h2; exact hbid)
                _ rfl rfl rfl).1
            · rw [if_neg haid]
              by_cases hbid : b.id = ed.id
              · rw [if_pos hbid]
                exact (no_conflict_no_overlap (some ed) day time duration hdpos a
                  (hnc a ha) (fun ed2 h2 => by cases h2; exact haid)
                  _ rfl rfl rfl).2
              · rw [if_neg hbid]
                exact hnov
          | none =>
            cases hsv
            rw [NoOverlaps, List.pairwise_append]
            refine ⟨hno, List.pairwise_singleton _ _, ?_⟩
            intro a ha b hb
            rw [List.mem_singleton] at hb
            subst hb
            exact (no_conflict_no_overlap none day time duration hdpos a
              (hnc a ha) (fun ed2 h2 => by cases h2) _ rfl rfl rfl).2

/-- Closed instance of `timetable_overlap_invariant`: an entry at
09:00–09:45 makes a 09:30 submission conflict and is not saved. -/
theorem timetable_overlap_invariant_witness :
    (handleSubmit [⟨"a", .monday, ['0', '9', ':', '0', '0'], "S", some 45⟩]
        none .monday ['0', '9', ':', '3', '0'] "S" 45 "f").isSaved = false ∧
    (∃ c, handleSubmit [⟨"a", .monday, ['0', '9', ':', '0', '0'], "S", some 45⟩]
        none .monday ['0', '9', ':', '3', '0'] "S" 45 "f" = .conflictError c) := by
  have hex : ∃ e ∈ [(⟨"a", .monday, ['0', '9', ':', '0', '0'], "S", some 45⟩ :
      TimetableEntry)], e.day = Day.monday ∧
      (∀ ed, (none : Option TimetableEntry) = some ed → e.id ≠ ed.id) ∧
      ∃ s n, parseTimeValue e.time = some s ∧
        parseTimeValue ['0', '9', ':', '3', '0'] = some n ∧
        n < s + effDuration e ∧ s < n + (45 : ℤ).toNat := by
    refine ⟨_, List.mem_singleton_self _, rfl, ?_, ?_⟩
    · exact fun ed h => Option.noConfusion h
    · exact ⟨540, 570, by decide, by decide, by decide, by decide⟩
  exact ⟨(timetable_overlap_invariant
      [⟨"a", .monday, ['0', '9', ':', '0', '0'], "S", some 45⟩]
      none .monday ['0', '9', ':', '3', '0'] "S" 45 "f").1 hex,
    (timetable_overlap_invariant
      [⟨"a", .monday, ['0', '9', ':', '0', '0'], "S", some 45⟩]
      none .monday ['0', '9', ':', '3', '0'] "S" 45 "f").2.1 hex
      (by decide) (fun _ => by decide)⟩

/-! ## Bridges between the raw string operations and minute values -/

/-- Destructuring of a well-formed `HH:MM` string. -/
theorem wf_shape {s : List Char} (h : wellFormedHM s = true) :
    ∃ a b d e, s = [a, b, ':', d, e] ∧ jsIsDigit a = true ∧ jsIsDigit b = true ∧
      jsIsDigit d = true ∧ jsIsDigit e = true ∧
      10 * jsDigitVal a + jsDigitVal b < 24 ∧
      10 * jsDigitVal d + jsDigitVal e < 60 := by
  match s, h with
  | [a, b, c, d, e], h =>
    simp only [wellFormedHM, Bool.and_eq_true, decide_eq_true_eq] at h
    exact ⟨a, b, d, e, by rw [h.1.1.1.1.2], h.1.1.1.1.1.1, h.1.1.1.1.1.2,
      h.1.1.1.2, h.1.1.2, h.1.2, h.2⟩

/-- A digit character is not the colon. -/
theorem digit_ne_colon {c : Char} (h : jsIsDigit c = true) : ¬ (c = ':') := by
  intro he
  subst he
  simp [jsIsDigit] at h

/-- On a well-formed `HH:MM` string, the split-and-`Number` parse of the
code returns exactly the minute-of-day value. -/
theorem parse_wf {s : List Char} (h : wellFormedHM s = true) :
    parseTimeValue s = some (hmVal s) := by
  obtain ⟨a, b, d, e, rfl, ha, hb, hd, he, -, -⟩ := wf_shape h
  have hsplit : splitOnChar ':' [a, b, ':', d, e] = [[a, b], [d, e]] := by
    simp [splitOnChar, digit_ne_colon ha, digit_ne_colon hb,
      digit_ne_colon hd, digit_ne_colon he]
  simp only [parseTimeValue, hsplit, List.map_cons, List.map_nil, jsNumber,
    List.all_cons, List.all_nil, ha, hb, hd, he, Bool.and_true, Bool.true_and,
    if_pos rfl, List.getD_cons_zero, List.getD_cons_succ, hmVal, List.foldl]
  norm_num
  try ring

/-- On a well-formed `HH:MM` string the `Date`-constructor parse agrees
with the split parse. -/
theorem dateParse_wf {s : List Char} (h : wellFormedHM s = true) :
    dateParseHM s = some (hmVal s) := by
  simp [dateParseHM, h]

/-- Code-point bound of a digit character. -/
theorem digit_toNat {c : Char} (h : jsIsDigit c = true) :
    48 ≤ c.toNat ∧ c.toNat ≤ 57 ∧ jsDigitVal c = c.toNat - 48 := by
  simp only [jsIsDigit, Bool.and_eq_true, decide_eq_true_eq] at h
  exact ⟨h.1, h.2, rfl⟩

/-! ## Properties of the today loop -/

/-- The `upcomingToday` accumulator collects exactly the upcoming
entries, in list order. -/
theorem todayScan_fold_snd (now : ℕ) (l : List TimetableEntry) :
    ∀ acc : Option String × List TimetableEntry,
      (l.foldl (fun acc e =>
        ((if isCurrent now e then some e.id else acc.1),
         (if isUpcoming now e then acc.2 ++ [e] else acc.2))) acc).2 =
      acc.2 ++ l.filter (isUpcoming now) := by
  induction l with
  | nil => intro acc; simp
  | cons e l ih =>
    intro acc
    rw [List.foldl_cons, ih]
    by_cases h : isUpcoming now e <;> by_cases h2 : isCurrent now e <;>
      simp [h, h2, List.filter_cons]

/-- With no currently-running entry the `currentClassId` accumulator is
left alone. -/
theorem todayScan_fold_fst_none (now : ℕ) (l : List TimetableEntry)
    (h : ∀ e ∈ l, isCurrent now e = false) :
    ∀ acc : Option String × List TimetableEntry,
      (l.foldl (fun acc e =>
        ((if isCurrent now e then some e.id else acc.1),
         (if isUpcoming now e then acc.2 ++ [e] else acc.2))) acc).1 = acc.1 := by
  induction l with
  | nil => intro acc; rfl
  | cons e l ih =>
    intro acc
    rw [List.foldl_cons, ih (fun x hx => h x (List.mem_cons_of_mem _ hx))]
    simp [h e (List.mem_cons_self _ _)]

/-- If every currently-running entry carries id `i`, an accumulator
already at `some i` stays there. -/
theorem todayScan_fold_fst_keep (now : ℕ) (l : List TimetableEntry) (i : String)
    (h : ∀ e ∈ l, isCurrent now e = true → e.id = i) :
    ∀ acc : Option String × List TimetableEntry, acc.1 = some i →
      (l.foldl (fun acc e =>
        ((if isCurrent now e then some e.id else acc.1),
         (if isUpcoming now e then acc.2 ++ [e] else acc.2))) acc).1 = some i := by
  induction l with
  | nil => intro acc hacc; exact hacc
  | cons e l ih =>
    intro acc hacc
    rw [List.foldl_cons]
    refine ih (fun x hx => h x (List.mem_cons_of_mem _ hx)) _ ?_
    by_cases hc : isCurrent now e
    · simp [hc, h e (List.mem_cons_self _ _) hc]
    · simpa [hc] using hacc

/-- With a currently-running entry of id `i` present and every
currently-running entry carrying id `i`, the loop ends at `some i`. -/
theorem todayScan_fold_fst_unique (now : ℕ) (l : List TimetableEntry)
    (x : TimetableEntry) (hx : x ∈ l) (hcx : isCurrent now x = true)
    (h : ∀ e ∈ l, isCurrent now e = true → e.id = x.id) :
    ∀ acc : Option String × List TimetableEntry,
      (l.foldl (fun acc e =>
        ((if isCurrent now e then some e.id else acc.1),
         (if isUpcoming now e then acc.2 ++ [e] else acc.2))) acc).1 = some x.id := by
  induction l with
  | nil => cases hx
  | cons e l ih =>
    intro acc
    rw [List.foldl_cons]
    by_cases hc : isCurrent now e
    · refine todayScan_fold_fst_keep now l x.id
        (fun y hy hcy => h y (List.mem_cons_of_mem _ hy) hcy) _ ?_
      simp [hc, h e (List.mem_cons_self _ _) hc]
    · rcases List.mem_cons.mp hx with rfl | hx2
      · rw [hcx] at hc; cases hc rfl
      · exact ih hx2 (fun y hy hcy => h y (List.mem_cons_of_mem _ hy) hcy) _

/-- `overlaps` is symmetric. -/
theorem overlaps_symm : Symmetric overlaps := by
  rintro a b ⟨hd, s, t, hs, ht, h1, h2⟩
  exact ⟨hd.symm, t, s, ht, hs, h2, h1⟩

/-- Under the no-overlap invariant two entries running at the same
instant on the same day are the same entry. -/
theorem current_unique (tt : List TimetableEntry) (hno : NoOverlaps tt)
    (D : Day) (now : ℕ) (a b : TimetableEntry) (ha : a ∈ tt) (hb : b ∈ tt)
    (haD : a.day = D) (hbD : b.day = D) (sa sb : ℕ)
    (hsa : parseTimeValue a.time = some sa)
    (hsb : parseTimeValue b.time = some sb)
    (hca : sa ≤ now ∧ now < sa + effDuration a)
    (hcb : sb ≤ now ∧ now < sb + effDuration b) : a = b := by
  by_contra hne
  have hov : overlaps a b :=
    ⟨haD.trans hbD.symm, sa, sb, hsa, hsb, by omega, by omega⟩
  have hsymm : Symmetric (fun a b : TimetableEntry => ¬ overlaps a b) :=
    fun x y hnov hxy => hnov (overlaps_symm hxy)
  exact (hno.forall hsymm ha hb hne) hov

/-- Decoding of the inline current test on a well-formed time. -/
theorem inlineIsCurrent_iff (D : Day) (now : ℕ) (e : TimetableEntry)
    (hwfe : wellFormedHM e.time = true) :
    inlineIsCurrent D now e = true ↔
      e.day = D ∧ hmVal e.time ≤ now ∧ now ≤ hmVal e.time + effDuration e := by
  simp [inlineIsCurrent, dateParse_wf hwfe, and_assoc]

/-- Decoding of the loop's current test on a well-formed time. -/
theorem isCurrent_iff (now : ℕ) (e : TimetableEntry)
    (hwfe : wellFormedHM e.time = true) :
    isCurrent now e = true ↔
      hmVal e.time ≤ now ∧ now < hmVal e.time + effDuration e := by
  simp [isCurrent, startTimeValue, parse_wf hwfe]

/-- Decoding of the loop's upcoming test on a well-formed time. -/
theorem isUpcoming_iff (now : ℕ) (e : TimetableEntry)
    (hwfe : wellFormedHM e.time = true) :
    isUpcoming now e = true ↔ now < hmVal e.time := by
  simp [isUpcoming, startTimeValue, parse_wf hwfe]

/-- Membership in today's sorted list. -/
theorem mem_todaySorted (tt : List TimetableEntry) (D : Day)
    (e : TimetableEntry) :
    e ∈ todaySorted tt D ↔ e ∈ tt ∧ e.day = D := by
  rw [todaySorted, (List.perm_insertionSort byStartKey _).mem_iff,
    List.mem_filter]
  simp

/-- The entry of the C2 counterexample: Monday 09:00, 45 minutes. -/
def mondayNine : TimetableEntry :=
  ⟨"c1", .monday, ['0', '9', ':', '0', '0'], "Algorithms", some 45⟩

/-- C2 counterexample: at 09:45 — the exact end instant of the only
class — the accept-path resolution inlined in `handleVerification`
(inclusive comparison `now <= endTime`) still selects the class, while
`getScheduleStatus` (strict `now < endTime`) reports no current class,
so the two computations disagree on the same timetable and instant. -/
theorem schedule_refinement_cex :
    (inlineCurrentClass [mondayNine] (dayAt 1) 585).map (fun e => e.id) = some "c1" ∧
    (getScheduleStatus [mondayNine] 1 585).currentClassId = none ∧
    (inlineCurrentClass [mondayNine] (dayAt 1) 585).map (fun e => e.id) ≠
      (getScheduleStatus [mondayNine] 1 585).currentClassId := by
  refine ⟨by decide, by decide, by decide⟩

/-- C2 amended: on an accepted match, the class resolution inlined in
`handleVerification` computes the same class as `getScheduleStatus`'s
`currentClassId` on the same timetable and instant, at every instant
that is not exactly the end time of a same-day entry (where the inline
inclusive end still selects the just-ended class), given well-formed
times and the no-overlap invariant. -/
theorem schedule_refinement_amended (tt : List TimetableEntry) (d now : ℕ)
    (hwf : ∀ e ∈ tt, wellFormedHM e.time = true)
    (hno : NoOverlaps tt)
    (hend : ∀ e ∈ tt, e.day = dayAt d →
      now ≠ hmVal e.time + effDuration e) :
    (inlineCurrentClass tt (dayAt d) now).map (fun e => e.id) =
      (getScheduleStatus tt d now).currentClassId := by
  have hsched : (getScheduleStatus tt d now).currentClassId =
      (todayScan now (todaySorted tt (dayAt d))).1 := rfl
  by_cases hex : ∃ x ∈ tt, x.day = dayAt d ∧
      hmVal x.time ≤ now ∧ now < hmVal x.time + effDuration x
  · obtain ⟨x, hxm, hxD, hx1, hx2⟩ := hex
    have huniq : ∀ e ∈ tt, e.day = dayAt d → hmVal e.time ≤ now →
        now < hmVal e.time + effDuration e → e = x := by
      intro e he heD h1 h2
      exact current_unique tt hno (dayAt d) now e x he hxm heD hxD _ _
        (parse_wf (hwf e he)) (parse_wf (hwf x hxm)) ⟨h1, h2⟩ ⟨hx1, hx2⟩
    have hinl : (inlineCurrentClass tt (dayAt d) now).map (fun e => e.id) =
        some x.id := by
      unfold inlineCurrentClass
      cases hf : tt.find? (inlineIsCurrent (dayAt d) now) with
      | none =>
        have := List.find?_eq_none.mp hf x hxm
        rw [inlineIsCurrent_iff _ _ _ (hwf x hxm)] at this
        exact absurd ⟨hxD, hx1, Nat.le_of_lt hx2⟩ this
      | some c =>
        have hpc := List.find?_some hf
        have hcm := List.mem_of_find?_eq_some hf
        rw [inlineIsCurrent_iff _ _ _ (hwf c hcm)] at hpc
        obtain ⟨hcD, hc1, hc2⟩ := hpc
        have hc2' : now < hmVal c.time + effDuration c :=
          lt_of_le_of_ne hc2 (hend c hcm hcD)
        rw [huniq c hcm hcD hc1 hc2']
        rfl
    rw [hinl, hsched]
    have hxs : x ∈ todaySorted tt (dayAt d) := (mem_todaySorted tt _ x).mpr ⟨hxm, hxD⟩
    have hcx : isCurrent now x = true := by
      rw [isCurrent_iff now x (hwf x hxm)]; exact ⟨hx1, hx2⟩
    rw [todayScan]
    exact (todayScan_fold_fst_unique now (todaySorted tt (dayAt d)) x hxs hcx
      (by
        intro e he hce
        obtain ⟨hetc, heD⟩ := (mem_todaySorted tt _ e).mp he
        rw [isCurrent_iff now e (hwf e hetc)] at hce
        rw [huniq e hetc heD hce.1 hce.2]) (none, [])).symm
  · push_neg at hex
    have hinl : inlineCurrentClass tt (dayAt d) now = none := by
      unfold inlineCurrentClass
      rw [List.find?_eq_none]
      intro e he
      rw [Bool.not_eq_true, ← Bool.not_eq_true, inlineIsCurrent_iff _ _ _ (hwf e he)]
      rintro ⟨heD, h1, h2⟩
      have h2' : now < hmVal e.time + effDuration e :=
        lt_of_le_of_ne h2 (hend e he heD)
      have := hex e he heD h1
      omega
    rw [hinl, hsched, todayScan]
    rw [todayScan_fold_fst_none now (todaySorted tt (dayAt d)) (by
      intro e he
      obtain ⟨hetc, heD⟩ := (mem_todaySorted tt _ e).mp he
      rw [← Bool.not_eq_true, isCurrent_iff now e (hwf e hetc)]
      rintro ⟨h1, h2⟩
      have := hex e hetc heD h1
      omega) (none, [])]
    rfl

/-- Closed instance of `schedule_refinement_amended` at 09:30, inside
the class: both resolutions agree on `some "c1"`. -/
theorem schedule_refinement_amended_witness :
    (inlineCurrentClass [mondayNine] (dayAt 1) 570).map (fun e => e.id) =
      (getScheduleStatus [mondayNine] 1 570).currentClassId ∧
    (inlineCurrentClass [mondayNine] (dayAt 1) 570).map (fun e => e.id) =
      some "c1" := by
  constructor
  · exact schedule_refinement_amended [mondayNine] 1 570
      (by decide) (List.pairwise_singleton _ _) (by decide)
  · decide

/-! ## Properties of the purge batching -/

/-- Unfolding: no records, no batches. -/
theorem chunksOf_nil (n : ℕ) : chunksOf n ([] : List AttendanceDoc) = [] := rfl

/-- Unfolding of one chunking step. -/
theorem chunksOf_cons (n : ℕ) (hn : n ≠ 0) (a : AttendanceDoc)
    (rest : List AttendanceDoc) :
    chunksOf n (a :: rest) =
      (a :: rest).take n :: chunksOf n ((a :: rest).drop n) := by
  show chunksOfFuel n (rest.length + 1) (a :: rest) = _
  simp only [chunksOfFuel, if_neg hn]
  rw [chunksOf, chunksOfFuel_congr n rest.length ((a :: rest).drop n).length
    ((a :: rest).drop n) (by simp; omega) le_rfl]

/-- The batches concatenate back to the chunked list. -/
theorem chunksOf_flatten (n : ℕ) (hn : n ≠ 0) :
    ∀ (k : ℕ) (l : List AttendanceDoc), l.length ≤ k →
      (chunksOf n l).flatten = l := by
  intro k
  induction k with
  | zero =>
    intro l hl
    match l, hl with
    | [], _ => rw [chunksOf_nil]; rfl
  | succ k ih =>
    intro l hl
    match l with
    | [] => rw [chunksOf_nil]; rfl
    | a :: rest =>
      rw [chunksOf_cons n hn, List.flatten_cons,
        ih ((a :: rest).drop n)
          (by simp only [List.length_drop, List.length_cons]
              simp only [List.length_cons] at hl
              omega),
        List.take_append_drop]

/-- Every batch holds at most `n` records. -/
theorem chunksOf_size (n : ℕ) (hn : n ≠ 0) :
    ∀ (k : ℕ) (l : List AttendanceDoc), l.length ≤ k →
      ∀ b ∈ chunksOf n l, b.length ≤ n := by
  intro k
  induction k with
  | zero =>
    intro l hl
    match l, hl with
    | [], _ => intro b hb; rw [chunksOf_nil] at hb; cases hb
  | succ k ih =>
    intro l hl
    match l with
    | [] => intro b hb; rw [chunksOf_nil] at hb; cases hb
    | a :: rest =>
      rw [chunksOf_cons n hn]
      intro b hb
      rcases List.mem_cons.mp hb with rfl | hb2
      · simp
      · refine ih ((a :: rest).drop n) ?_ b hb2
        simp only [List.length_drop, List.length_cons]
        simp only [List.length_cons] at hl
        omega

/-- A non-empty chunked list yields at least one batch. -/
theorem chunksOf_pos (n : ℕ) (hn : n ≠ 0) (a : AttendanceDoc)
    (rest : List AttendanceDoc) :
    0 < (chunksOf n (a :: rest)).length := by
  rw [chunksOf_cons n hn]
  simp

/-- Batch-count bounds: the record count is covered by `count` batches
of `n` but not by `count - 1` — so `count` is the ceiling of
`length / n`. -/
theorem chunksOf_count (n : ℕ) (hn : n ≠ 0) :
    ∀ (k : ℕ) (l : List AttendanceDoc), l.length ≤ k → l ≠ [] →
      l.length ≤ (chunksOf n l).length * n ∧
        ((chunksOf n l).length - 1) * n < l.length := by
  intro k
  induction k with
  | zero =>
    intro l hl hne
    match l, hl with
    | [], _ => exact absurd rfl hne
  | succ k ih =>
    intro l hl hne
    match l with
    | a :: rest =>
      rw [chunksOf_cons n hn]
      by_cases hdrop : (a :: rest).drop n = []
      · rw [hdrop, chunksOf_nil]
        have hlen : (a :: rest).length ≤ n := by
          have := List.drop_eq_nil_iff.mp hdrop
          omega
        simp only [List.length_cons, List.length_nil] at *
        omega
      · have hdl : ((a :: rest).drop n).length ≤ k := by
          simp only [List.length_drop, List.length_cons]
          simp only [List.length_cons] at hl
          omega
        obtain ⟨h1, h2⟩ := ih ((a :: rest).drop n) hdl hdrop
        have hpos : 0 < ((a :: rest).drop n).length := List.length_pos.mpr hdrop
        have hcpos : 0 < (chunksOf n ((a :: rest).drop n)).length := by
          match hdn : (a :: rest).drop n, hdrop with
          | b :: bs, _ => exact chunksOf_pos n hn b bs
        rw [List.length_drop] at h1 h2 hpos
        simp only [List.length_cons] at h1 h2 hpos ⊢
        constructor
        · have hn1 : 1 ≤ n := Nat.one_le_iff_ne_zero.mpr hn
          calc rest.length + 1 = (rest.length + 1 - n) + n := by omega
            _ ≤ (chunksOf n ((a :: rest).drop n)).length * n + n := by omega
            _ = ((chunksOf n ((a :: rest).drop n)).length + 1) * n := by ring
        · rw [Nat.succ_sub_one]
          calc (chunksOf n ((a :: rest).drop n)).length * n
              = ((chunksOf n ((a :: rest).drop n)).length - 1) * n + n := by
                cases hc : (chunksOf n ((a :: rest).drop n)).length with
                | zero => omega
                | succ m => simp [Nat.succ_mul]
            _ < (rest.length + 1 - n) + n := by omega
            _ ≤ rest.length + 1 := by omega

/-- `Promise.all` resolves iff every commit resolves. -/
theorem promiseAll_ok_iff (rs : List Bool) :
    promiseAll rs = .ok () ↔ ∀ b ∈ rs, b = true := by
  unfold promiseAll
  cases hf : rs.findIdx? (fun b => !b) with
  | some i =>
    simp only []
    constructor
    · intro h; cases h
    · intro h
      have hnone : rs.findIdx? (fun b => !b) = none :=
        List.findIdx?_eq_none_iff.mpr (fun x hx => by simp [h x hx])
      rw [hf] at hnone; cases hnone
  | none =>
    simp only []
    constructor
    · intro _
      intro x hx
      have := List.findIdx?_eq_none_iff.mp hf x hx
      simpa using this
    · intro _; trivial

/-- C8 amended: `deleteAllAttendanceRecords` reads the whole ledger,
filters client-side by subject membership, deletes matches in
concurrently committed batches of at most 500 (`N` matching records
give `ceil(N/500)` commits), succeeds only when every batch commit
succeeds, and does not roll back batches that succeeded when others
fail; the aggregate rejection carries a single failing batch
(`Promise.all` is fail-fast), not an individual report per failed
batch. -/
theorem purge_batches_amended (ledger : List AttendanceDoc)
    (subjects : List String) (commitOk : ℕ → Bool)
    (hne : ledger.filter (fun d => subjects.contains d.record.subject) ≠ []) :
    (deleteAllAttendanceRecords ledger subjects commitOk).batches.flatten =
      ledger.filter (fun d => subjects.contains d.record.subject) ∧
    (∀ b ∈ (deleteAllAttendanceRecords ledger subjects commitOk).batches,
      b.length ≤ 500) ∧
    (deleteAllAttendanceRecords ledger subjects commitOk).batches.length =
      ((ledger.filter (fun d => subjects.contains d.record.subject)).length
        + 499) / 500 ∧
    ((deleteAllAttendanceRecords ledger subjects commitOk).result = .ok () ↔
      ∀ i < (deleteAllAttendanceRecords ledger subjects commitOk).batches.length,
        commitOk i = true) ∧
    (∀ i, ∀ hi : i < (deleteAllAttendanceRecords ledger subjects commitOk).batches.length,
      commitOk i = true →
      ∀ dd ∈ (deleteAllAttendanceRecords ledger subjects commitOk).batches.get ⟨i, hi⟩,
        dd ∉ (deleteAllAttendanceRecords ledger subjects commitOk).finalLedger) := by
  have h500 : (500 : ℕ) ≠ 0 := by omega
  have hlen : ¬ (ledger.filter (fun d => subjects.contains d.record.subject)).length = 0 := by
    simpa [List.length_eq_zero] using hne
  unfold deleteAllAttendanceRecords
  rw [if_neg hlen]
  dsimp only
  refine ⟨?_, ?_, ?_, ?_, ?_⟩
  · exact chunksOf_flatten 500 h500 _ _ le_rfl
  · exact chunksOf_size 500 h500 _ _ le_rfl
  · obtain ⟨h1, h2⟩ := chunksOf_count 500 h500 _ _ le_rfl hne
    omega
  · rw [promiseAll_ok_iff]
    constructor
    · intro h i hi
      exact h (commitOk i) (List.mem_map_of_mem _ (List.mem_range.mpr hi))
    · intro h b hb
      obtain ⟨i, hi, rfl⟩ := List.mem_map.mp hb
      exact h i (by simpa using List.mem_range.mp hi)
  · intro i hi hci dd hdd hmem
    rw [List.mem_filter] at hmem
    have hany := hmem.2
    rw [Bool.not_eq_eq_eq_not, Bool.not_true, List.any_eq_false] at hany
    refine hany ⟨i, (chunksOf 500
      (ledger.filter (fun d => subjects.contains d.record.subject))).get ⟨i, hi⟩⟩ ?_ ?_
    · rw [List.mem_enum_iff_getElem?]
      simp [List.getElem?_eq_getElem hi]
    · simp only [hci, Bool.true_and]
      simpa [List.contains] using hdd

/-- Closed instance of `purge_batches_amended`: one matching record
gives a single batch. -/
theorem purge_batches_amended_witness :
    (deleteAllAttendanceRecords
      [⟨"1", ⟨"s", "n", "Math", "2026-01-01", "present"⟩⟩] ["Math"]
      (fun _ => true)).batches.length = 1 := by
  have h := purge_batches_amended
      [⟨"1", ⟨"s", "n", "Math", "2026-01-01", "present"⟩⟩] ["Math"]
      (fun _ => true) (by decide)
  rw [h.2.2.1]
  decide

/-- The 501-record ledger of the C8 counterexample (two batches). -/
def purgeLedger : List AttendanceDoc :=
  (List.range 501).map fun i =>
    ⟨toString i, ⟨"s", "n", "Math", "2026-01-01", "present"⟩⟩

set_option maxRecDepth 100000 in
/-- C8 counterexample: with batch 0 failing, the aggregate report of
the purge is identical whether batch 1 succeeded or also failed
(`Promise.all` rejects with a single reason), while the ledgers left
behind differ — so the operation does not report failed batches
individually. -/
theorem purge_report_cex :
    (deleteAllAttendanceRecords purgeLedger ["Math"]
        (fun i => decide (i ≠ 0))).result =
      (deleteAllAttendanceRecords purgeLedger ["Math"]
        (fun _ => false)).result ∧
    (deleteAllAttendanceRecords purgeLedger ["Math"]
        (fun i => decide (i ≠ 0))).finalLedger.length = 500 ∧
    (deleteAllAttendanceRecords purgeLedger ["Math"]
        (fun _ => false)).finalLedger.length = 501 := by
  refine ⟨rfl, rfl, rfl⟩

/-! ## Bridging the lexicographic sort to minute values -/

/-- On well-formed `HH:MM` strings `localeCompare` order coincides with
minute-of-day order (zero padding makes the lexicographic comparison
chronological). -/
theorem lexLe_wf_iff {s t : List Char} (hs : wellFormedHM s = true)
    (ht : wellFormedHM t = true) :
    (lexLe s t = true) ↔ hmVal s ≤ hmVal t := by
  obtain ⟨a, b, d, e, rfl, ha, hb, hd, he, -, hm⟩ := wf_shape hs
  obtain ⟨a2, b2, d2, e2, rfl, ha2, hb2, hd2, he2, -, hm2⟩ := wf_shape ht
  simp only [jsIsDigit, Bool.and_eq_true, decide_eq_true_eq] at ha hb hd he ha2 hb2 hd2 he2
  have h0 : ('0' : Char).toNat = 48 := rfl
  simp only [jsDigitVal, h0] at hm hm2
  simp only [lexLe, hmVal, jsDigitVal, h0]
  have hc : (':' : Char).toNat = 58 := rfl
  rw [hc]
  simp only [Nat.lt_irrefl, if_false]
  split_ifs <;> simp <;> omega

/-- Head of a sorted run of `insertionSort` is a member and a minimum. -/
theorem insertionSort_head_min {r : TimetableEntry → TimetableEntry → Prop}
    [DecidableRel r] [IsTotal TimetableEntry r] [IsTrans TimetableEntry r]
    [IsRefl TimetableEntry r]
    (l : List TimetableEntry) (x : TimetableEntry) (rest : List TimetableEntry)
    (h : List.insertionSort r l = x :: rest) :
    x ∈ l ∧ ∀ y ∈ l, r x y := by
  have hs := List.sorted_insertionSort r l
  have hperm := List.perm_insertionSort r l
  rw [h] at hs hperm
  refine ⟨hperm.mem_iff.mp (List.mem_cons_self _ _), ?_⟩
  intro y hy
  rcases List.mem_cons.mp (hperm.mem_iff.mpr hy) with rfl | hy2
  · exact IsRefl.refl y
  · exact List.rel_of_sorted_cons hs y hy2

/-- Head of a sorted list is a minimum of the list. -/
theorem sorted_head_min {r : TimetableEntry → TimetableEntry → Prop}
    [IsRefl TimetableEntry r]
    (x : TimetableEntry) (rest : List TimetableEntry)
    (hs : List.Sorted r (x :: rest)) :
    ∀ y ∈ x :: rest, r x y := by
  intro y hy
  rcases List.mem_cons.mp hy with rfl | hy2
  · exact IsRefl.refl y
  · exact List.rel_of_sorted_cons hs y hy2

/-- A day's sorted candidate list is empty iff the day has no entries. -/
theorem nextDaySorted_eq_nil_iff (tt : List TimetableEntry) (D : Day) :
    nextDaySorted tt D = [] ↔ tt.filter (fun e => e.day == D) = [] := by
  rw [nextDaySorted]
  constructor
  · intro h
    have hperm := List.perm_insertionSort byTimeLex
      (tt.filter (fun e => e.day == D))
    rw [h] at hperm
    exact (hperm.symm.eq_nil)
  · intro h
    rw [h]
    rfl

/-- When every day probed by the fallback loop is empty, it finds
nothing. -/
theorem scanDaysFrom_none (tt : List TimetableEntry) (d : ℕ) :
    ∀ (fuel i : ℕ),
      (∀ k, k < fuel → tt.filter (fun e => e.day == dayAt ((d + (i + k)) % 7)) = []) →
      scanDaysFrom tt d fuel i = none := by
  intro fuel
  induction fuel with
  | zero => intro i _; rfl
  | succ f ih =>
    intro i h
    have h0 : nextDaySorted tt (dayAt ((d + i) % 7)) = [] := by
      rw [nextDaySorted_eq_nil_iff]
      simpa using h 0 (Nat.succ_pos f)
    rw [scanDaysFrom, h0]
    refine ih (i + 1) ?_
    intro k hk
    have := h (k + 1) (by omega)
    have harith : i + (k + 1) = i + 1 + k := by omega
    rwa [harith] at this

/-- The fallback loop returns the lexicographically first entry of the
first non-empty day it probes. -/
theorem scanDaysFrom_found (tt : List TimetableEntry) (d : ℕ) :
    ∀ (fuel i k : ℕ), k < fuel →
      (∀ j, j < k → tt.filter (fun e => e.day == dayAt ((d + (i + j)) % 7)) = []) →
      tt.filter (fun e => e.day == dayAt ((d + (i + k)) % 7)) ≠ [] →
      ∃ x ∈ tt, scanDaysFrom tt d fuel i = some x.id ∧
        x.day = dayAt ((d + (i + k)) % 7) ∧
        ∀ y ∈ tt, y.day = dayAt ((d + (i + k)) % 7) → byTimeLex x y := by
  intro fuel
  induction fuel with
  | zero => intro i k hk; omega
  | succ f ih =>
    intro i k hk hprev hne
    cases k with
    | zero =>
      simp only [Nat.add_zero] at hne ⊢
      cases hns : nextDaySorted tt (dayAt ((d + i) % 7)) with
      | nil => exact absurd ((nextDaySorted_eq_nil_iff tt _).mp hns) hne
      | cons x rest =>
        obtain ⟨hxmem, hxmin⟩ := insertionSort_head_min
          (tt.filter (fun e => e.day == dayAt ((d + i) % 7))) x rest hns
        rw [List.mem_filter] at hxmem
        refine ⟨x, hxmem.1, ?_, by simpa using hxmem.2, ?_⟩
        · rw [scanDaysFrom, hns]
        · intro y hy hyday
          exact hxmin y (List.mem_filter.mpr ⟨hy, by simpa using hyday⟩)
    | succ k2 =>
      have h0 : nextDaySorted tt (dayAt ((d + i) % 7)) = [] := by
        rw [nextDaySorted_eq_nil_iff]
        simpa using hprev 0 (Nat.succ_pos k2)
      rw [scanDaysFrom, h0]
      have harith : i + (k2 + 1) = i + 1 + k2 := by omega
      rw [harith] at hne ⊢
      refine ih (i + 1) k2 (by omega) ?_ hne
      intro j hj
      have := hprev (j + 1) (by omega)
      have harith2 : i + (j + 1) = i + 1 + j := by omega
      rwa [harith2] at this

/-- Unfolding of the `nextClassId` computation: upcoming-today head if
any, else the day-by-day fallback. -/
theorem getScheduleStatus_next_eq (tt : List TimetableEntry) (d now : ℕ) :
    (getScheduleStatus tt d now).nextClassId =
      (match ((todaySorted tt (dayAt d)).filter (isUpcoming now)).head? with
       | some e => some e.id
       | none => scanDaysFrom tt d 7 1) := by
  have hsnd : (todayScan now (todaySorted tt (dayAt d))).2 =
      (todaySorted tt (dayAt d)).filter (isUpcoming now) := by
    rw [todayScan, todayScan_fold_snd now (todaySorted tt (dayAt d)) (none, [])]
    rfl
  simp only [getScheduleStatus]
  rw [hsnd]
  cases hh : ((todaySorted tt (dayAt d)).filter (isUpcoming now)).head? with
  | none => simp
  | some e => simp

/-- Sort key equals the minute value on well-formed times. -/
theorem sortKeyToday_eq_hmVal (e : TimetableEntry)
    (hwfe : wellFormedHM e.time = true) : sortKeyToday e = hmVal e.time := by
  rw [sortKeyToday, startTimeValue, parse_wf hwfe]
  rfl

/-- C7: next-class selection of `getScheduleStatus`. With an empty
timetable both ids are null; with an upcoming same-day entry,
`nextClassId` is an earliest-starting entry of today with start
strictly after `now`; otherwise it is an earliest-starting entry of the
first non-empty day found scanning forward day by day (wrapping after
7 days), and null when every probed day is empty. -/
theorem next_class_selection (tt : List TimetableEntry) (d now : ℕ)
    (_hd7 : d < 7) (hwf : ∀ e ∈ tt, wellFormedHM e.time = true) :
    (tt = [] → (getScheduleStatus tt d now).currentClassId = none ∧
      (getScheduleStatus tt d now).nextClassId = none) ∧
    ((∃ e ∈ tt, e.day = dayAt d ∧ now < hmVal e.time) →
      ∃ e ∈ tt, (getScheduleStatus tt d now).nextClassId = some e.id ∧
        e.day = dayAt d ∧ now < hmVal e.time ∧
        ∀ f ∈ tt, f.day = dayAt d → now < hmVal f.time →
          hmVal e.time ≤ hmVal f.time) ∧
    ((¬ ∃ e ∈ tt, e.day = dayAt d ∧ now < hmVal e.time) →
      ∀ i, 1 ≤ i → i ≤ 7 →
      (∃ e ∈ tt, e.day = dayAt ((d + i) % 7)) →
      (∀ j, 1 ≤ j → j < i → ∀ f ∈ tt, f.day ≠ dayAt ((d + j) % 7)) →
      ∃ e ∈ tt, (getScheduleStatus tt d now).nextClassId = some e.id ∧
        e.day = dayAt ((d + i) % 7) ∧
        ∀ f ∈ tt, f.day = dayAt ((d + i) % 7) →
          hmVal e.time ≤ hmVal f.time) ∧
    ((¬ ∃ e ∈ tt, e.day = dayAt d ∧ now < hmVal e.time) →
      (∀ i, 1 ≤ i → i ≤ 7 → ∀ f ∈ tt, f.day ≠ dayAt ((d + i) % 7)) →
      (getScheduleStatus tt d now).nextClassId = none) := by
  have hup_mem : ∀ e, e ∈ (todaySorted tt (dayAt d)).filter (isUpcoming now) ↔
      (e ∈ tt ∧ e.day = dayAt d ∧ now < hmVal e.time) := by
    intro e
    rw [List.mem_filter, mem_todaySorted]
    constructor
    · rintro ⟨⟨he, hed⟩, hu⟩
      exact ⟨he, hed, (isUpcoming_iff now e (hwf e he)).mp hu⟩
    · rintro ⟨he, hed, hu⟩
      exact ⟨⟨he, hed⟩, (isUpcoming_iff now e (hwf e he)).mpr hu⟩
  refine ⟨?_, ?_, ?_, ?_⟩
  · rintro rfl
    exact ⟨rfl, rfl⟩
  · rintro ⟨x, hx, hxd, hxu⟩
    have hxf : x ∈ (todaySorted tt (dayAt d)).filter (isUpcoming now) :=
      (hup_mem x).mpr ⟨hx, hxd, hxu⟩
    cases hfil : (todaySorted tt (dayAt d)).filter (isUpcoming now) with
    | nil => rw [hfil] at hxf; cases hxf
    | cons y ys =>
      have hy : y ∈ tt ∧ y.day = dayAt d ∧ now < hmVal y.time :=
        (hup_mem y).mp (hfil ▸ List.mem_cons_self y ys)
      have hsort : List.Sorted byStartKey (todaySorted tt (dayAt d)) :=
        List.sorted_insertionSort byStartKey _
      have hsortf : List.Sorted byStartKey (y :: ys) := by
        rw [← hfil]
        exact List.Pairwise.filter _ hsort
      refine ⟨y, hy.1, ?_, hy.2.1, hy.2.2, ?_⟩
      · rw [getScheduleStatus_next_eq, hfil]
        rfl
      · intro f hf hfd hfu
        have hff : f ∈ y :: ys := hfil ▸ (hup_mem f).mpr ⟨hf, hfd, hfu⟩
        have := sorted_head_min y ys hsortf f hff
        rw [byStartKey, sortKeyToday_eq_hmVal y (hwf y hy.1),
          sortKeyToday_eq_hmVal f (hwf f hf)] at this
        exact this
  · intro hnone i h1 h7 hex hempty
    obtain ⟨x, hx, hxd⟩ := hex
    have hfil : (todaySorted tt (dayAt d)).filter (isUpcoming now) = [] := by
      refine List.filter_eq_nil_iff.mpr ?_
      intro e he
      rw [mem_todaySorted] at he
      rw [Bool.not_eq_true, ← Bool.not_eq_true, isUpcoming_iff now e (hwf e he.1)]
      intro hu
      exact hnone ⟨e, he.1, he.2, hu⟩
    have harith : 1 + (i - 1) = i := by omega
    obtain ⟨e, he, heq, hed, hmin⟩ :=
      scanDaysFrom_found tt d 7 1 (i - 1) (by omega)
        (by
          intro j hj
          refine List.filter_eq_nil_iff.mpr ?_
          intro f hf
          have := hempty (j + 1) (by omega) (by omega) f hf
          have ha2 : 1 + j = j + 1 := by omega
          rw [ha2]
          simpa using this)
        (by
          rw [harith]
          refine List.ne_nil_of_mem (List.mem_filter.mpr ⟨hx, by simpa using hxd⟩))
    rw [harith] at hed hmin
    refine ⟨e, he, ?_, hed, ?_⟩
    · rw [getScheduleStatus_next_eq, hfil]
      exact heq
    · intro f hf hfd
      have := hmin f hf hfd
      rw [byTimeLex, lexLe_wf_iff (hwf e he) (hwf f hf)] at this
      exact this
  · intro hnone hempty
    have hfil : (todaySorted tt (dayAt d)).filter (isUpcoming now) = [] := by
      refine List.filter_eq_nil_iff.mpr ?_
      intro e he
      rw [mem_todaySorted] at he
      rw [Bool.not_eq_true, ← Bool.not_eq_true, isUpcoming_iff now e (hwf e he.1)]
      intro hu
      exact hnone ⟨e, he.1, he.2, hu⟩
    rw [getScheduleStatus_next_eq, hfil]
    refine scanDaysFrom_none tt d 7 1 ?_
    intro k hk
    refine List.filter_eq_nil_iff.mpr ?_
    intro f hf
    have := hempty (k + 1) (by omega) (by omega) f hf
    have ha2 : 1 + k = k + 1 := by omega
    rw [ha2]
    simpa using this

/-- The entry of the C7 witness: Tuesday 10:00. -/
def tuesdayTen : TimetableEntry :=
  ⟨"n1", .tuesday, ['1', '0', ':', '0', '0'], "DS", some 45⟩

/-- Closed instance of `next_class_selection`: on a Monday at 10:00
with only a Tuesday 10:00 class, the fallback day scan selects it; with
no entries at all, `nextClassId` is null. -/
theorem next_class_selection_witness :
    (getScheduleStatus [tuesdayTen] 1 600).nextClassId = some "n1" ∧
    (getScheduleStatus ([] : List TimetableEntry) 1 600).nextClassId = none := by
  constructor
  · obtain ⟨e, he, heq, -, -⟩ :=
      (next_class_selection [tuesdayTen] 1 600 (by omega) (by decide)).2.2.1
        (by decide) 1 le_rfl (by omega)
        ⟨tuesdayTen, List.mem_singleton_self _, by decide⟩
        (fun j hj1 hj2 => by omega)
    rw [List.mem_singleton] at he
    subst he
    exact heq
  · exact ((next_class_selection [] 1 600 (by omega) (by simp)).1 rfl).2
